import Mathlib

/-!
Verification of `src/validation/apply-field-changes.py`.

The script reads a target file, performs three literal substring
replacements (Python `str.replace`: every non-overlapping occurrence,
scanning left to right) and writes the result back, printing one fixed
message.  We model strings as `List Char`, `str.replace` by `replaceAll`
(for the non-empty patterns the script uses), occurrence counting
(Python `str.count`) by `countOccs`, and the file system by a map from
paths to optional contents.
-/

set_option maxRecDepth 100000

namespace FieldChanges

/-- Python `str.replace` for a non-empty pattern, fuelled so that the
definition is structural (the script only calls `replace` with fixed
non-empty literals).  Scans left to right, replacing every
non-overlapping occurrence of `old` by `new`. -/
def replaceAllF (old new : List Char) : Nat → List Char → List Char
  | _, [] => []
  | 0, s => s
  | fuel + 1, c :: t =>
    if old ≠ [] ∧ old <+: (c :: t) then
      new ++ replaceAllF old new fuel ((c :: t).drop old.length)
    else
      c :: replaceAllF old new fuel t

/-- Model of `s.replace(old, new)` for non-empty `old`. -/
def replaceAll (old new s : List Char) : List Char :=
  replaceAllF old new s.length s

/-- Python `str.count` for a non-empty pattern: number of
non-overlapping occurrences, scanning left to right (fuelled). -/
def countOccsF (pat : List Char) : Nat → List Char → Nat
  | _, [] => 0
  | 0, _ => 0
  | fuel + 1, c :: t =>
    if pat ≠ [] ∧ pat <+: (c :: t) then
      countOccsF pat fuel ((c :: t).drop pat.length) + 1
    else
      countOccsF pat fuel t

/-- Model of `s.count(pat)` for non-empty `pat`. -/
def countOccs (pat s : List Char) : Nat := countOccsF pat s.length s

/-- No nonempty proper suffix of `y` is a prefix of `z`. -/
def SufPref (y z : List Char) : Prop :=
  ∀ k, k < y.length → 0 < k → ¬ (y.drop k <+: z)

instance (y z : List Char) : Decidable (SufPref y z) := by
  unfold SufPref; infer_instance

/-- Patterns `y` and `z` cannot overlap anywhere: neither contains the
other and no nonempty proper suffix of one is a prefix of the other. -/
def NoOverlap (y z : List Char) : Prop :=
  ¬ y <:+: z ∧ ¬ z <:+: y ∧ SufPref y z ∧ SufPref z y

instance (y z : List Char) : Decidable (NoOverlap y z) := by
  unfold NoOverlap; infer_instance

/-- Pattern `x` has no nonempty proper border (no nonempty proper
suffix of `x` is also a prefix of `x`). -/
def BorderFree (x : List Char) : Prop := SufPref x x

instance (x : List Char) : Decidable (BorderFree x) := by
  unfold BorderFree; infer_instance

/-- Executable check: no nonempty suffix of `w` is a prefix of `z`. -/
def tailsOk (z : List Char) : List Char → Bool
  | [] => true
  | c :: t => (!(c :: t).isPrefixOf z) && tailsOk z t

/-- Executable check: does `pat` occur in `s` as a contiguous
substring? -/
def containsSub (pat : List Char) : List Char → Bool
  | [] => pat.isEmpty
  | c :: t => pat.isPrefixOf (c :: t) || containsSub pat t

/-! The literals of `apply-field-changes.py`, byte for byte ( `\x7b` and
`\x7d` are `{` and `}` ). -/

/-- Target path (`parser_file` in the script). -/
def parser_file : String := "enhanced-figma-parser.ts"

/-- Path of the file whose content is spliced into replacement 3. -/
def insert_path : String := "field-classifier-insert.txt"

/-- The "old" literal of substitution 1 (ComponentType enum). -/
def old_enum : List Char :=
  ("export type ComponentType =\n  | 'Button'\n  | 'Input'\n  | 'Card'").toList

/-- The "new" literal of substitution 1 (adds the Field alternative). -/
def new_enum : List Char :=
  ("export type ComponentType =\n  | 'Button'\n  | 'Input'\n  | 'Field'\n  | 'Card'").toList

/-- The "old" literal of substitution 2 (classifier list). -/
def old_classifiers : List Char :=
  ("    const classifiers = [\n      this.classifySlider,\n      this.classifyPagination,\n      this.classifyTabs,\n      this.classifyButton,\n      this.classifyInput,\n      this.classifyTextarea,\n      this.classifyCheckbox,\n      this.classifyRadioGroup,\n      this.classifyRadio,\n      this.classifySwitch,\n      this.classifyToggleGroup,\n      this.classifySelect,\n      this.classifyDialog,\n      this.classifyCard,\n      this.classifyForm,").toList

/-- The "new" literal of substitution 2 (adds classifyField). -/
def new_classifiers : List Char :=
  ("    const classifiers = [\n      this.classifySlider,\n      this.classifyPagination,\n      this.classifyTabs,\n      this.classifyButton,\n      this.classifyInput,\n      this.classifyTextarea,\n      this.classifyField,\n      this.classifyCheckbox,\n      this.classifyRadioGroup,\n      this.classifyRadio,\n      this.classifySwitch,\n      this.classifyToggleGroup,\n      this.classifySelect,\n      this.classifyDialog,\n      this.classifyCard,\n      this.classifyForm,").toList

/-- The "old" literal of substitution 3 (`insert_marker` in the script:
the classifyImage method followed by the closing class brace). -/
def insert_marker : List Char :=
  ("  static classifyImage(node: FigmaNode): ComponentClassification \x7b\n    const name = node.name.toLowerCase();\n    const reasons: string[] = [];\n    let confidence = 0;\n\n    if (name.includes('image') || name.includes('img') || name.includes('picture')) \x7b\n      confidence += 0.5;\n      reasons.push('Name suggests image');\n    \x7d\n\n    // Has image fill\n    const hasImageFill = node.fills && node.fills.some(f => f.type === 'IMAGE');\n    if (hasImageFill) \x7b\n      confidence += 0.5;\n      reasons.push('Has image fill');\n    \x7d\n\n    return \x7b\n      type: 'Image',\n      confidence: Math.min(confidence, 1),\n      reasons\n    \x7d;\n  \x7d\n\x7d").toList

/-- First string literal of the script's `replacement` expression (the
classifyImage method followed by a blank line). -/
def replacementHead : List Char :=
  ("  static classifyImage(node: FigmaNode): ComponentClassification \x7b\n    const name = node.name.toLowerCase();\n    const reasons: string[] = [];\n    let confidence = 0;\n\n    if (name.includes('image') || name.includes('img') || name.includes('picture')) \x7b\n      confidence += 0.5;\n      reasons.push('Name suggests image');\n    \x7d\n\n    // Has image fill\n    const hasImageFill = node.fills && node.fills.some(f => f.type === 'IMAGE');\n    if (hasImageFill) \x7b\n      confidence += 0.5;\n      reasons.push('Has image fill');\n    \x7d\n\n    return \x7b\n      type: 'Image',\n      confidence: Math.min(confidence, 1),\n      reasons\n    \x7d;\n  \x7d\n\n").toList

/-- Last string literal of the script's `replacement` expression. -/
def closingBrace : List Char :=
  ("\n\x7d").toList

/-- The script's `replacement` value: the matched block with the insert
file content spliced in before the closing class brace. -/
def replacement (classifier_code : List Char) : List Char :=
  replacementHead ++ classifier_code ++ closingBrace

/-- The fixed confirmation message printed on completion. -/
def done_message : String := "✓ Applied Field changes to enhanced-figma-parser.ts"

/-- In-memory transformation applied to the target text: the three
replacements in script order. -/
def transform (classifier_code content : List Char) : List Char :=
  replaceAll insert_marker (replacement classifier_code)
    (replaceAll old_classifiers new_classifiers
      (replaceAll old_enum new_enum content))

/-- A file system: a map from paths to optional contents. -/
structure FileSystem where
  files : String → Option (List Char)

/-- Failures the script can hit in this model. -/
inductive PyError where
  | fileNotFound : String → PyError
deriving DecidableEq

/-- Opening a path for reading: fails with FileNotFound if absent. -/
def readFile (fs : FileSystem) (p : String) : Except PyError (List Char) :=
  match fs.files p with
  | some c => Except.ok c
  | none => Except.error (PyError.fileNotFound p)

/-- Opening a path for writing and writing `c`: replaces the previous
content wholesale. -/
def writeFile (fs : FileSystem) (p : String) (c : List Char) : FileSystem :=
  ⟨fun q => if q = p then some c else fs.files q⟩

/-- The script's `main`: read the target, apply substitutions 1 and 2,
read the insert file, apply substitution 3, write the target back and
print the confirmation message.  Any file error propagates (nothing is
caught); the result is the final file system and the list of printed
lines. -/
def main (fs : FileSystem) : Except PyError (FileSystem × List String) := do
  let content ← readFile fs parser_file
  let content1 := replaceAll old_enum new_enum content
  let content2 := replaceAll old_classifiers new_classifiers content1
  let classifier_code ← readFile fs insert_path
  let content3 := replaceAll insert_marker (replacement classifier_code) content2
  pure (writeFile fs parser_file content3, [done_message])


/-- Side conditions on the insert-file content under which the patch
literals cannot interact with the spliced block: the resulting third
"new" value is border-free and cannot overlap any of the five fixed
literals. -/
def InsertOk (code : List Char) : Prop :=
  BorderFree (replacement code) ∧
  NoOverlap old_enum (replacement code) ∧
  NoOverlap old_classifiers (replacement code) ∧
  NoOverlap insert_marker (replacement code) ∧
  NoOverlap new_enum (replacement code) ∧
  NoOverlap new_classifiers (replacement code)

/-- A benign sample insert-file content (a classifyField method). -/
def goodInsert : List Char :=
  ("  static classifyField(): void \x7b\x7d").toList

/-- An adversarial insert-file content: it smuggles the enum "old"
literal into the text spliced by substitution 3. -/
def badInsert : List Char :=
  ("  static classifyField(): void \x7b\x7d\n").toList ++ old_enum

/-- A target text containing each "old" literal exactly once and also a
pre-existing copy of the enum "new" literal. -/
def c2text : List Char :=
  new_enum ++ ("\nZZ\n").toList ++ old_enum ++ ("\nZZ\n").toList ++
    old_classifiers ++ ("\nZZ\n").toList ++ insert_marker

/-- A target text containing each "old" literal exactly once and none
of the "new" literals. -/
def c2goodtext : List Char :=
  old_enum ++ ("\nZZ\n").toList ++ old_classifiers ++ ("\nZZ\n").toList ++
    insert_marker

/-- A target text in which the enum "old" literal occurs twice and the
enum "new" literal already occurs once. -/
def c10text : List Char :=
  new_enum ++ ("\nZZ\n").toList ++ old_enum ++ ("\nZZ\n").toList ++ old_enum

/-- A sample file system used to instantiate the `main` theorems. -/
def fsW : FileSystem :=
  ⟨fun q => if q = parser_file then some (("abc").toList)
    else if q = insert_path then some (("xyz").toList) else none⟩

end FieldChanges

namespace FieldChanges

theorem replaceAllF_nil (old new : List Char) (f : Nat) :
    replaceAllF old new f [] = [] := by
  cases f <;> rfl

theorem countOccsF_nil (pat : List Char) (f : Nat) :
    countOccsF pat f [] = 0 := by
  cases f <;> rfl

theorem replaceAllF_fuelEq (old new : List Char) :
    ∀ (n f g : Nat) (s : List Char), s.length ≤ n → s.length ≤ f →
      s.length ≤ g → replaceAllF old new f s = replaceAllF old new g s := by
  intro n
  induction n with
  | zero =>
    intro f g s hn _ _
    have : s = [] := List.length_eq_zero.mp (Nat.le_zero.mp hn)
    subst this; simp [replaceAllF_nil]
  | succ n ih =>
    intro f g s hn hf hg
    cases s with
    | nil => simp [replaceAllF_nil]
    | cons c t =>
      obtain ⟨f', rfl⟩ : ∃ f', f = f' + 1 := by
        cases f with
        | zero => simp at hf
        | succ m => exact ⟨m, rfl⟩
      obtain ⟨g', rfl⟩ : ∃ g', g = g' + 1 := by
        cases g with
        | zero => simp at hg
        | succ m => exact ⟨m, rfl⟩
      by_cases h : old ≠ [] ∧ old <+: (c :: t)
      · have hol : 1 ≤ old.length := by
          have := h.1
          cases old with
          | nil => exact absurd rfl this
          | cons a b => simp
        have hd : ((c :: t).drop old.length).length = t.length + 1 - old.length := by
          simp [List.length_drop]
        have h1 : replaceAllF old new (f' + 1) (c :: t) =
            new ++ replaceAllF old new f' ((c :: t).drop old.length) := by
          simp only [replaceAllF, if_pos h]
        have h2 : replaceAllF old new (g' + 1) (c :: t) =
            new ++ replaceAllF old new g' ((c :: t).drop old.length) := by
          simp only [replaceAllF, if_pos h]
        rw [h1, h2, ih f' g' _ (by simp at hn; omega) (by simp at hf; omega)
          (by simp at hg; omega)]
      · have h1 : replaceAllF old new (f' + 1) (c :: t) =
            c :: replaceAllF old new f' t := by
          simp only [replaceAllF, if_neg h]
        have h2 : replaceAllF old new (g' + 1) (c :: t) =
            c :: replaceAllF old new g' t := by
          simp only [replaceAllF, if_neg h]
        rw [h1, h2, ih f' g' t (by simp at hn; omega) (by simp at hf; omega)
          (by simp at hg; omega)]

theorem replaceAllF_fuel (old new : List Char) (f : Nat) (s : List Char)
    (hf : s.length ≤ f) :
    replaceAllF old new f s = replaceAllF old new s.length s :=
  replaceAllF_fuelEq old new s.length f s.length s le_rfl hf le_rfl

theorem countOccsF_fuelEq (pat : List Char) :
    ∀ (n f g : Nat) (s : List Char), s.length ≤ n → s.length ≤ f →
      s.length ≤ g → countOccsF pat f s = countOccsF pat g s := by
  intro n
  induction n with
  | zero =>
    intro f g s hn _ _
    have : s = [] := List.length_eq_zero.mp (Nat.le_zero.mp hn)
    subst this; simp [countOccsF_nil]
  | succ n ih =>
    intro f g s hn hf hg
    cases s with
    | nil => simp [countOccsF_nil]
    | cons c t =>
      obtain ⟨f', rfl⟩ : ∃ f', f = f' + 1 := by
        cases f with
        | zero => simp at hf
        | succ m => exact ⟨m, rfl⟩
      obtain ⟨g', rfl⟩ : ∃ g', g = g' + 1 := by
        cases g with
        | zero => simp at hg
        | succ m => exact ⟨m, rfl⟩
      by_cases h : pat ≠ [] ∧ pat <+: (c :: t)
      · have hol : 1 ≤ pat.length := by
          have := h.1
          cases pat with
          | nil => exact absurd rfl this
          | cons a b => simp
        have hd : ((c :: t).drop pat.length).length = t.length + 1 - pat.length := by
          simp [List.length_drop]
        have h1 : countOccsF pat (f' + 1) (c :: t) =
            countOccsF pat f' ((c :: t).drop pat.length) + 1 := by
          simp only [countOccsF, if_pos h]
        have h2 : countOccsF pat (g' + 1) (c :: t) =
            countOccsF pat g' ((c :: t).drop pat.length) + 1 := by
          simp only [countOccsF, if_pos h]
        rw [h1, h2, ih f' g' _ (by simp at hn; omega) (by simp at hf; omega)
          (by simp at hg; omega)]
      · have h1 : countOccsF pat (f' + 1) (c :: t) =
            countOccsF pat f' t := by
          simp only [countOccsF, if_neg h]
        have h2 : countOccsF pat (g' + 1) (c :: t) =
            countOccsF pat g' t := by
          simp only [countOccsF, if_neg h]
        rw [h1, h2, ih f' g' t (by simp at hn; omega) (by simp at hf; omega)
          (by simp at hg; omega)]

theorem countOccsF_fuel (pat : List Char) (f : Nat) (s : List Char)
    (hf : s.length ≤ f) :
    countOccsF pat f s = countOccsF pat s.length s :=
  countOccsF_fuelEq pat s.length f s.length s le_rfl hf le_rfl

theorem replaceAll_nil (old new : List Char) : replaceAll old new [] = [] := rfl

theorem countOccs_nil (pat : List Char) : countOccs pat [] = 0 := rfl

theorem replaceAll_pos {old s : List Char} (new : List Char)
    (h0 : old ≠ []) (hp : old <+: s) :
    replaceAll old new s = new ++ replaceAll old new (s.drop old.length) := by
  cases s with
  | nil =>
    exact absurd (List.prefix_nil.mp hp) h0
  | cons c t =>
    have hol : 1 ≤ old.length := by
      cases old with
      | nil => exact absurd rfl h0
      | cons a b => simp
    have hlen : ((c :: t).drop old.length).length ≤ t.length := by
      simp only [List.length_drop, List.length_cons]
      omega
    show replaceAllF old new (t.length + 1) (c :: t) = _
    simp only [replaceAllF, if_pos (And.intro h0 hp)]
    rw [replaceAllF_fuel old new t.length _ hlen]
    rfl

theorem replaceAll_neg {old : List Char} (new : List Char) {c : Char}
    {t : List Char} (h : ¬ old <+: (c :: t)) :
    replaceAll old new (c :: t) = c :: replaceAll old new t := by
  have hg : ¬ (old ≠ [] ∧ old <+: (c :: t)) := fun hh => h hh.2
  show replaceAllF old new (t.length + 1) (c :: t) = _
  simp only [replaceAllF, if_neg hg]
  rfl

theorem countOccs_pos {pat s : List Char}
    (h0 : pat ≠ []) (hp : pat <+: s) :
    countOccs pat s = countOccs pat (s.drop pat.length) + 1 := by
  cases s with
  | nil =>
    exact absurd (List.prefix_nil.mp hp) h0
  | cons c t =>
    have hol : 1 ≤ pat.length := by
      cases pat with
      | nil => exact absurd rfl h0
      | cons a b => simp
    have hlen : ((c :: t).drop pat.length).length ≤ t.length := by
      simp only [List.length_drop, List.length_cons]
      omega
    show countOccsF pat (t.length + 1) (c :: t) = _
    simp only [countOccsF, if_pos (And.intro h0 hp)]
    rw [countOccsF_fuel pat t.length _ hlen]
    rfl

theorem countOccs_neg {pat : List Char} {c : Char}
    {t : List Char} (h : ¬ pat <+: (c :: t)) :
    countOccs pat (c :: t) = countOccs pat t := by
  have hg : ¬ (pat ≠ [] ∧ pat <+: (c :: t)) := fun hh => h hh.2
  show countOccsF pat (t.length + 1) (c :: t) = _
  simp only [countOccsF, if_neg hg]
  rfl

theorem tailsOk_iff (z : List Char) :
    ∀ w : List Char, tailsOk z w = true ↔
      ∀ j, j < w.length → ¬ (w.drop j <+: z) := by
  intro w
  induction w with
  | nil => simp [tailsOk]
  | cons c t ih =>
    rw [tailsOk, Bool.and_eq_true, Bool.not_eq_true', ih]
    constructor
    · intro ⟨hhead, htail⟩ j hj
      cases j with
      | zero =>
        intro hpre
        rw [List.drop_zero] at hpre
        rw [(List.isPrefixOf_iff_prefix).mpr hpre] at hhead
        simp at hhead
      | succ i =>
        rw [List.drop_succ_cons]
        exact htail i (by simpa using hj)
    · intro h
      constructor
      · rw [← Bool.not_eq_true]
        intro hpre
        exact h 0 (by simp) (by
          rw [List.drop_zero]
          exact (List.isPrefixOf_iff_prefix).mp hpre)
      · intro j hj
        have := h (j + 1) (by simpa using hj)
        rwa [List.drop_succ_cons] at this

theorem sufPref_of_tailsOk {y z : List Char}
    (h : tailsOk z y.tail = true) : SufPref y z := by
  intro k hk hk0
  cases y with
  | nil => simp at hk
  | cons c t =>
    obtain ⟨j, rfl⟩ : ∃ j, k = j + 1 := ⟨k - 1, by omega⟩
    rw [List.drop_succ_cons]
    exact (tailsOk_iff z t).mp h j (by simp at hk; omega)

theorem borderFree_of_tailsOk {x : List Char}
    (h : tailsOk x x.tail = true) : BorderFree x :=
  sufPref_of_tailsOk h

theorem containsSub_iff (pat : List Char) :
    ∀ s : List Char, containsSub pat s = true ↔ pat <:+: s := by
  intro s
  induction s with
  | nil =>
    rw [containsSub, List.infix_nil, List.isEmpty_iff]
  | cons c t ih =>
    rw [containsSub, Bool.or_eq_true, ih, List.infix_cons_iff,
      List.isPrefixOf_iff_prefix]

theorem not_infix_of_containsSub {pat s : List Char}
    (h : containsSub pat s = false) : ¬ pat <:+: s := by
  intro hin
  rw [← containsSub_iff] at hin
  rw [hin] at h
  simp at h

theorem noOverlap_of_checks {y z : List Char}
    (h1 : containsSub y z = false) (h2 : containsSub z y = false)
    (h3 : tailsOk z y.tail = true) (h4 : tailsOk y z.tail = true) :
    NoOverlap y z :=
  ⟨not_infix_of_containsSub h1, not_infix_of_containsSub h2,
    sufPref_of_tailsOk h3, sufPref_of_tailsOk h4⟩

theorem countOccs_eq_zero_iff {pat : List Char} (h0 : pat ≠ []) :
    ∀ s : List Char, countOccs pat s = 0 ↔ ¬ pat <:+: s := by
  intro s
  induction s with
  | nil =>
    rw [countOccs_nil, List.infix_nil]
    exact ⟨fun _ hh => h0 hh, fun _ => rfl⟩
  | cons c t ih =>
    by_cases hp : pat <+: (c :: t)
    · rw [countOccs_pos h0 hp]
      simp only [Nat.add_one_ne_zero, false_iff, not_not]
      exact hp.isInfix
    · rw [countOccs_neg hp, ih, List.infix_cons_iff]
      tauto

theorem replaceAll_absent {old : List Char} (new : List Char)
    (h0 : old ≠ []) : ∀ s : List Char, ¬ old <:+: s → replaceAll old new s = s := by
  intro s
  induction s with
  | nil => intro _; rfl
  | cons c t ih =>
    intro h
    rw [List.infix_cons_iff] at h
    push_neg at h
    rw [replaceAll_neg new h.1, ih h.2]

theorem prefAppendCases {y a b : List Char} (h : y <+: a ++ b) :
    y <+: a ∨ (a <+: y ∧ y.drop a.length <+: b) := by
  induction a generalizing y with
  | nil =>
    right
    exact ⟨List.nil_prefix, by simpa using h⟩
  | cons c a ih =>
    cases y with
    | nil => left; exact List.nil_prefix
    | cons d y =>
      rw [List.cons_append, List.cons_prefix_cons] at h
      obtain ⟨rfl, h2⟩ := h
      rcases ih h2 with hy | ⟨hpre, hdrop⟩
      · left; exact List.cons_prefix_cons.mpr ⟨rfl, hy⟩
      · right
        refine ⟨List.cons_prefix_cons.mpr ⟨rfl, hpre⟩, ?_⟩
        simpa using hdrop

theorem sufStructure {t x : List Char} (h : t <:+ x) :
    t = x ∨ ∃ j, 0 < j ∧ j ≤ x.length ∧ t = x.drop j := by
  obtain ⟨u, hu⟩ := h
  cases u with
  | nil => left; simpa using hu
  | cons e u =>
    right
    refine ⟨(e :: u).length, by simp, ?_, ?_⟩
    · rw [← hu]; simp [List.length_append]
    · rw [← hu, List.drop_left]

theorem infixAppendCases {y b : List Char} :
    ∀ a : List Char, y <:+: a ++ b →
      y <:+: a ∨ y <:+: b ∨
        ∃ k, 0 < k ∧ k < y.length ∧ y.take k <:+ a ∧ y.drop k <+: b := by
  intro a
  induction a with
  | nil => intro h; right; left; simpa using h
  | cons c a ih =>
    intro h
    rw [List.cons_append, List.infix_cons_iff] at h
    rcases h with hpre | hinf
    · cases y with
      | nil => left; exact List.nil_infix
      | cons d y =>
        rw [List.cons_prefix_cons] at hpre
        obtain ⟨rfl, h2⟩ := hpre
        rcases prefAppendCases h2 with hy | ⟨hpre2, hdrop⟩
        · left
          exact (List.cons_prefix_cons.mpr ⟨rfl, hy⟩).isInfix
        · by_cases hk : a.length + 1 < (d :: y).length
          · right; right
            have ht : (d :: y).take (a.length + 1) = d :: a := by
              have h3 := List.prefix_iff_eq_take.mp hpre2
              rw [List.take_succ_cons, ← h3]
            refine ⟨a.length + 1, by omega, hk, ?_, ?_⟩
            · rw [ht]
            · simpa using hdrop
          · have hlen : y.length ≤ a.length := by
              simp only [List.length_cons] at hk; omega
            have : a = y := hpre2.eq_of_length_le hlen
            subst this
            left
            exact List.infix_rfl
    · rcases ih hinf with h1 | h2 | ⟨k, hk0, hky, hsuf, hpre2⟩
      · left; exact h1.trans (List.suffix_cons c a).isInfix
      · right; left; exact h2
      · right; right
        exact ⟨k, hk0, hky, hsuf.trans (List.suffix_cons c a), hpre2⟩

/-- If `y` can overlap neither `x` nor a boundary of `x` (no containment
either way, no nonempty proper suffix of one being a prefix of the
other), then an occurrence of `y` in `p ++ (x ++ r)` lies entirely
inside `p` or entirely inside `r`. -/
theorem noTouch {y x p r : List Char} (h1 : ¬ y <:+: x) (h2 : ¬ x <:+: y)
    (h3 : SufPref y x) (h4 : SufPref x y)
    (h : y <:+: p ++ (x ++ r)) : y <:+: p ∨ y <:+: r := by
  rcases infixAppendCases p h with hp | hxr | ⟨k, hk0, hky, hsuf, hpre⟩
  · left; exact hp
  · rcases infixAppendCases x hxr with hx | hr | ⟨k, hk0, hky, hsuf, hpre⟩
    · exact absurd hx h1
    · right; exact hr
    · rcases sufStructure hsuf with heq | ⟨j, hj0, _, heq⟩
      · exfalso
        apply h2
        have hx : x <+: y := heq ▸ List.take_prefix k y
        exact hx.isInfix
      · exfalso
        have hne : y.take k ≠ [] := by
          have hy : y ≠ [] := by
            intro hh; subst hh; simp at hky
          intro hh
          rcases List.take_eq_nil_iff.mp hh with h' | h'
          · omega
          · exact hy h'
        have hjlt : j < x.length := by
          by_contra hge
          have : x.drop j = [] := List.drop_eq_nil_iff.mpr (by omega)
          rw [heq, this] at hne
          exact hne rfl
        exact h4 j hjlt hj0 (heq ▸ List.take_prefix k y)
  · rcases prefAppendCases hpre with hpx | ⟨hxp, _⟩
    · exact absurd hpx (h3 k hky hk0)
    · exact absurd (hxp.isInfix.trans (List.drop_suffix k y).isInfix) h2

/-- Decomposition of a string at the first (leftmost) occurrence of
`old`, together with what `replaceAll` and `countOccs` do there. -/
theorem splitFirst {old : List Char} (x : List Char) (h0 : old ≠ []) :
    ∀ {s : List Char}, old <:+: s →
      ∃ p q, s = p ++ (old ++ q) ∧
        replaceAll old x s = p ++ (x ++ replaceAll old x q) ∧
        countOccs old s = countOccs old q + 1 ∧
        ∀ u v, p = u ++ v → v ≠ [] → ¬ old <+: v ++ (old ++ q) := by
  intro s
  induction s with
  | nil =>
    intro h
    rw [List.infix_nil] at h
    exact absurd h h0
  | cons c t ih =>
    intro h
    by_cases hp : old <+: (c :: t)
    · refine ⟨[], (c :: t).drop old.length, ?_, ?_, ?_, ?_⟩
      · rw [List.nil_append]
        exact (List.prefix_iff_eq_append.mp hp).symm
      · rw [List.nil_append]
        exact replaceAll_pos x h0 hp
      · exact countOccs_pos h0 hp
      · intro u v huv hv
        exact absurd (List.append_eq_nil.mp huv.symm).2 hv
    · have ht : old <:+: t := by
        rcases List.infix_cons_iff.mp h with h' | h'
        · exact absurd h' hp
        · exact h'
      obtain ⟨p, q, hs, hr, hc, hmin⟩ := ih ht
      refine ⟨c :: p, q, ?_, ?_, ?_, ?_⟩
      · rw [List.cons_append, ← hs]
      · rw [replaceAll_neg x hp, hr, List.cons_append]
      · rw [countOccs_neg hp, hc]
      · intro u v huv hv
        cases u with
        | nil =>
          rw [List.nil_append] at huv
          subst huv
          rw [List.cons_append, ← hs]
          exact hp
        | cons e u =>
          rw [List.cons_append, List.cons.injEq] at huv
          exact hmin u v huv.2 hv

/-- The prefix part `p` delivered by `splitFirst` contains no occurrence
of `old`. -/
theorem minNotInfix {old p q : List Char} (h0 : old ≠ [])
    (hmin : ∀ u v, p = u ++ v → v ≠ [] → ¬ old <+: v ++ (old ++ q)) :
    ¬ old <:+: p := by
  intro hin
  obtain ⟨u, w, hu⟩ := hin
  have hv : p = u ++ (old ++ w) := by rw [← hu, List.append_assoc]
  apply hmin u (old ++ w) hv (List.append_ne_nil_of_left_ne_nil h0 w)
  rw [List.append_assoc]
  exact List.prefix_append old _

/-- After `replaceAll old x`, no occurrence of `old` remains, provided
`old` and `x` cannot overlap. -/
theorem noOldLeftAux {old x : List Char} (h0 : old ≠ [])
    (hov : NoOverlap old x) :
    ∀ n s, s.length ≤ n → ¬ old <:+: replaceAll old x s := by
  obtain ⟨h1, h2, h3, h4⟩ := hov
  intro n
  induction n with
  | zero =>
    intro s hs
    have : s = [] := List.length_eq_zero.mp (Nat.le_zero.mp hs)
    subst this
    rw [replaceAll_nil, List.infix_nil]
    exact h0
  | succ n ih =>
    intro s hs
    by_cases hin : old <:+: s
    · obtain ⟨p, q, hseq, hr, _, hmin⟩ := splitFirst x h0 hin
      rw [hr]
      intro hcon
      rcases noTouch h1 h2 h3 h4 hcon with hcp | hcq
      · exact minNotInfix h0 hmin hcp
      · have hq : q.length ≤ n := by
          have := congrArg List.length hseq
          simp only [List.length_append] at this
          have hol : 1 ≤ old.length := by
            cases old with
            | nil => exact absurd rfl h0
            | cons a b => simp
          omega
        exact ih q hq hcq
    · rw [replaceAll_absent x h0 s hin]
      exact hin

theorem noOldLeft {old x : List Char} (h0 : old ≠ [])
    (hov : NoOverlap old x) (s : List Char) :
    ¬ old <:+: replaceAll old x s :=
  noOldLeftAux h0 hov s.length s le_rfl

/-- `replaceAll old x` creates no new occurrence of a pattern `y` that
cannot overlap `x`. -/
theorem noCreateAux {old x y : List Char} (h0 : old ≠ [])
    (hov : NoOverlap y x) :
    ∀ n s, s.length ≤ n → ¬ y <:+: s → ¬ y <:+: replaceAll old x s := by
  obtain ⟨h1, h2, h3, h4⟩ := hov
  intro n
  induction n with
  | zero =>
    intro s hs hy
    have : s = [] := List.length_eq_zero.mp (Nat.le_zero.mp hs)
    subst this
    rw [replaceAll_nil]
    exact hy
  | succ n ih =>
    intro s hs hy
    by_cases hin : old <:+: s
    · obtain ⟨p, q, hseq, hr, _, _⟩ := splitFirst x h0 hin
      rw [hr]
      intro hcon
      rcases noTouch h1 h2 h3 h4 hcon with hcp | hcq
      · apply hy
        rw [hseq]
        exact hcp.trans (List.prefix_append p _).isInfix
      · have hol : 1 ≤ old.length := by
          cases old with
          | nil => exact absurd rfl h0
          | cons a b => simp
        have hq : q.length ≤ n := by
          have := congrArg List.length hseq
          simp only [List.length_append] at this
          omega
        have hyq : ¬ y <:+: q := by
          intro hh
          apply hy
          rw [hseq]
          exact hh.trans ((List.suffix_append old q).trans
            (List.suffix_append p (old ++ q))).isInfix
        exact ih q hq hyq hcq
    · rw [replaceAll_absent x h0 s hin]
      exact hy

theorem noCreate {old x y : List Char} (h0 : old ≠ [])
    (hov : NoOverlap y x) (s : List Char) (hy : ¬ y <:+: s) :
    ¬ y <:+: replaceAll old x s :=
  noCreateAux h0 hov s.length s le_rfl hy

/-- `replaceAll old x` destroys no occurrence of a pattern `y` that
cannot overlap `old`. -/
theorem keepOccAux {old x y : List Char} (h0 : old ≠ [])
    (hov : NoOverlap y old) :
    ∀ n s, s.length ≤ n → y <:+: s → y <:+: replaceAll old x s := by
  obtain ⟨h1, h2, h3, h4⟩ := hov
  intro n
  induction n with
  | zero =>
    intro s hs hy
    have : s = [] := List.length_eq_zero.mp (Nat.le_zero.mp hs)
    subst this
    rw [replaceAll_nil]
    exact hy
  | succ n ih =>
    intro s hs hy
    by_cases hin : old <:+: s
    · obtain ⟨p, q, hseq, hr, _, _⟩ := splitFirst x h0 hin
      rw [hr]
      rw [hseq] at hy
      rcases noTouch h1 h2 h3 h4 hy with hcp | hcq
      · exact hcp.trans (List.prefix_append p _).isInfix
      · have hol : 1 ≤ old.length := by
          cases old with
          | nil => exact absurd rfl h0
          | cons a b => simp
        have hq : q.length ≤ n := by
          have := congrArg List.length hseq
          simp only [List.length_append] at this
          omega
        have := ih q hq hcq
        exact this.trans ((List.suffix_append x _).trans
          (List.suffix_append p _)).isInfix
    · rw [replaceAll_absent x h0 s hin]
      exact hy

theorem keepOcc {old x y : List Char} (h0 : old ≠ [])
    (hov : NoOverlap y old) (s : List Char) (hy : y <:+: s) :
    y <:+: replaceAll old x s :=
  keepOccAux h0 hov s.length s le_rfl hy

/-- If `old` occurs in `s`, then `x` occurs in `replaceAll old x s`. -/
theorem newAppears {old : List Char} (x : List Char) (h0 : old ≠ [])
    {s : List Char} (h : old <:+: s) : x <:+: replaceAll old x s := by
  obtain ⟨p, q, _, hr, _, _⟩ := splitFirst x h0 h
  rw [hr]
  exact (List.prefix_append x _).isInfix.trans (List.suffix_append p _).isInfix

/-- Greedy occurrence counting distributes over an append when no
occurrence of `y` can cross the boundary. -/
theorem countAppendAux {y : List Char} (h0 : y ≠ []) :
    ∀ n a b, a.length ≤ n →
      (∀ k, 0 < k → k < y.length → ¬ (y.take k <:+ a ∧ y.drop k <+: b)) →
      countOccs y (a ++ b) = countOccs y a + countOccs y b := by
  intro n
  induction n with
  | zero =>
    intro a b ha _
    have : a = [] := List.length_eq_zero.mp (Nat.le_zero.mp ha)
    subst this
    rw [List.nil_append, countOccs_nil, Nat.zero_add]
  | succ n ih =>
    intro a b ha hcross
    cases a with
    | nil => rw [List.nil_append, countOccs_nil, Nat.zero_add]
    | cons c t =>
      have hy1 : 1 ≤ y.length := by
        cases y with
        | nil => exact absurd rfl h0
        | cons e u => simp
      by_cases hp : y <+: (c :: t) ++ b
      · have hpa : y <+: (c :: t) := by
          rcases prefAppendCases hp with h' | ⟨hct, hdrop⟩
          · exact h'
          · by_cases hk : (c :: t).length < y.length
            · exfalso
              apply hcross (c :: t).length (by simp) hk
              refine ⟨?_, hdrop⟩
              rw [← List.prefix_iff_eq_take.mp hct]
            · have : c :: t = y :=
                hct.eq_of_length_le (by omega)
              rw [← this]
        have hlen : y.length ≤ (c :: t).length := hpa.length_le
        rw [countOccs_pos h0 hp, countOccs_pos h0 hpa,
          List.drop_append_of_le_length hlen]
        have hlt : ((c :: t).drop y.length).length ≤ n := by
          simp only [List.length_drop, List.length_cons] at *
          omega
        rw [ih _ b hlt ?_]
        · omega
        · intro k hk0 hky ⟨hsuf, hpre⟩
          exact hcross k hk0 hky
            ⟨hsuf.trans (List.drop_suffix y.length (c :: t)), hpre⟩
      · have hpa : ¬ y <+: (c :: t) := by
          intro hh
          exact hp (hh.trans (List.prefix_append (c :: t) b))
        rw [List.cons_append, countOccs_neg (by rwa [List.cons_append] at hp),
          countOccs_neg hpa]
        have hlt : t.length ≤ n := by
          simp only [List.length_cons] at ha
          omega
        rw [ih t b hlt ?_]
        intro k hk0 hky ⟨hsuf, hpre⟩
        exact hcross k hk0 hky ⟨hsuf.trans (List.suffix_cons c t), hpre⟩

theorem countAppend {y : List Char} (h0 : y ≠ []) (a b : List Char)
    (hcross : ∀ k, 0 < k → k < y.length →
      ¬ (y.take k <:+ a ∧ y.drop k <+: b)) :
    countOccs y (a ++ b) = countOccs y a + countOccs y b :=
  countAppendAux h0 a.length a b le_rfl hcross

/-- No occurrence of `y` crosses a boundary whose right part starts
with a block `z` that `y` cannot overlap. -/
theorem crossFree {y z a r : List Char} (h2 : ¬ z <:+: y)
    (h3 : SufPref y z) (k : Nat) (hk0 : 0 < k) (hky : k < y.length) :
    ¬ (y.take k <:+ a ∧ y.drop k <+: z ++ r) := by
  intro ⟨_, hpre⟩
  rcases prefAppendCases hpre with h' | ⟨hzp, _⟩
  · exact h3 k hky hk0 h'
  · exact h2 (hzp.isInfix.trans (List.drop_suffix k y).isInfix)

/-- No occurrence of `y` crosses out of a block `z` that `y` cannot
overlap. -/
theorem crossFreeRight {y z r : List Char} (h0 : y ≠ []) (h2 : ¬ z <:+: y)
    (h4 : SufPref z y) (k : Nat) (hk0 : 0 < k) (hky : k < y.length) :
    ¬ (y.take k <:+ z ∧ y.drop k <+: r) := by
  intro ⟨hsuf, _⟩
  rcases sufStructure hsuf with heq | ⟨j, hj0, _, heq⟩
  · exact h2 ((heq ▸ List.take_prefix k y).isInfix)
  · have hne : y.take k ≠ [] := by
      have hy : y ≠ [] := h0
      intro hh
      rcases List.take_eq_nil_iff.mp hh with h' | h'
      · omega
      · exact hy h'
    have hjlt : j < z.length := by
      by_contra hge
      have : z.drop j = [] := List.drop_eq_nil_iff.mpr (by omega)
      rw [heq, this] at hne
      exact hne rfl
    exact h4 j hjlt hj0 (heq ▸ List.take_prefix k y)

/-- No occurrence of a border-free `x` crosses into a region that
starts with an inserted copy of `x`. -/
theorem crossFreeSelf {x a r : List Char} (hb : BorderFree x)
    (k : Nat) (hk0 : 0 < k) (hky : k < x.length) :
    ¬ (x.take k <:+ a ∧ x.drop k <+: x ++ r) := by
  intro ⟨_, hpre⟩
  rcases prefAppendCases hpre with h' | ⟨hxp, _⟩
  · exact hb k hky hk0 h'
  · have := hxp.length_le
    simp only [List.length_drop] at this
    omega

/-- Counting the inserted pattern: if `x` is border-free and absent
from `s`, then after `replaceAll old x s` it occurs exactly as often as
`old` occurred in `s`. -/
theorem countNewAux {old x : List Char} (h0 : old ≠ []) (hx0 : x ≠ [])
    (hb : BorderFree x) :
    ∀ n s, s.length ≤ n → ¬ x <:+: s →
      countOccs x (replaceAll old x s) = countOccs old s := by
  intro n
  induction n with
  | zero =>
    intro s hs _
    have : s = [] := List.length_eq_zero.mp (Nat.le_zero.mp hs)
    subst this
    rw [replaceAll_nil, countOccs_nil, countOccs_nil]
  | succ n ih =>
    intro s hs hxabs
    by_cases hin : old <:+: s
    · obtain ⟨p, q, hseq, hr, hc, _⟩ := splitFirst x h0 hin
      have hol : 1 ≤ old.length := by
        cases old with
        | nil => exact absurd rfl h0
        | cons a b => simp
      have hq : q.length ≤ n := by
        have := congrArg List.length hseq
        simp only [List.length_append] at this
        omega
      have hxq : ¬ x <:+: q := by
        intro hh
        apply hxabs
        rw [hseq]
        exact hh.trans ((List.suffix_append old q).trans
          (List.suffix_append p (old ++ q))).isInfix
      have hxp : ¬ x <:+: p := by
        intro hh
        apply hxabs
        rw [hseq]
        exact hh.trans (List.prefix_append p _).isInfix
      rw [hr,
        countAppend hx0 p (x ++ replaceAll old x q)
          (fun k hk0 hky => crossFreeSelf hb k hk0 hky),
        (countOccs_eq_zero_iff hx0 p).mpr hxp, Nat.zero_add,
        countOccs_pos hx0 (List.prefix_append x (replaceAll old x q)),
        List.drop_left, ih q hq hxq, hc]
    · rw [replaceAll_absent x h0 s hin,
        (countOccs_eq_zero_iff hx0 s).mpr hxabs,
        (countOccs_eq_zero_iff h0 s).mpr hin]

theorem countNew {old x : List Char} (h0 : old ≠ []) (hx0 : x ≠ [])
    (hb : BorderFree x) (s : List Char) (hxabs : ¬ x <:+: s) :
    countOccs x (replaceAll old x s) = countOccs old s :=
  countNewAux h0 hx0 hb s.length s le_rfl hxabs

/-- Counting a bystander pattern `y` that can overlap neither `old` nor
`x`: `replaceAll old x` leaves its number of occurrences unchanged. -/
theorem countKeepAux {old x y : List Char} (h0 : old ≠ []) (hy0 : y ≠ [])
    (hovOld : NoOverlap y old) (hovX : NoOverlap y x) :
    ∀ n s, s.length ≤ n →
      countOccs y (replaceAll old x s) = countOccs y s := by
  obtain ⟨ho1, ho2, ho3, ho4⟩ := hovOld
  obtain ⟨hx1, hx2, hx3, hx4⟩ := hovX
  intro n
  induction n with
  | zero =>
    intro s hs
    have : s = [] := List.length_eq_zero.mp (Nat.le_zero.mp hs)
    subst this
    rw [replaceAll_nil]
  | succ n ih =>
    intro s hs
    by_cases hin : old <:+: s
    · obtain ⟨p, q, hseq, hr, _, _⟩ := splitFirst x h0 hin
      have hol : 1 ≤ old.length := by
        cases old with
        | nil => exact absurd rfl h0
        | cons a b => simp
      have hq : q.length ≤ n := by
        have := congrArg List.length hseq
        simp only [List.length_append] at this
        omega
      rw [hr, hseq,
        countAppend hy0 p (x ++ replaceAll old x q)
          (fun k hk0 hky => crossFree hx2 hx3 k hk0 hky),
        countAppend hy0 x (replaceAll old x q)
          (fun k hk0 hky => crossFreeRight hy0 hx2 hx4 k hk0 hky),
        (countOccs_eq_zero_iff hy0 x).mpr hx1,
        countAppend hy0 p (old ++ q)
          (fun k hk0 hky => crossFree ho2 ho3 k hk0 hky),
        countAppend hy0 old q
          (fun k hk0 hky => crossFreeRight hy0 ho2 ho4 k hk0 hky),
        (countOccs_eq_zero_iff hy0 old).mpr ho1,
        ih q hq]
    · rw [replaceAll_absent x h0 s hin]

theorem countKeep {old x y : List Char} (h0 : old ≠ []) (hy0 : y ≠ [])
    (hovOld : NoOverlap y old) (hovX : NoOverlap y x) (s : List Char) :
    countOccs y (replaceAll old x s) = countOccs y s :=
  countKeepAux h0 hy0 hovOld hovX s.length s le_rfl

end FieldChanges

namespace FieldChanges

theorem fsW_target : fsW.files parser_file = some (("abc").toList) := by
  simp [fsW]

theorem fsW_insert : fsW.files insert_path = some (("xyz").toList) := by
  have hne : insert_path ≠ parser_file := by decide
  simp [fsW, hne]

theorem main_ok (fs : FileSystem) (content code : List Char)
    (hc : fs.files parser_file = some content)
    (hk : fs.files insert_path = some code) :
    main fs = Except.ok
      (writeFile fs parser_file
        (replaceAll insert_marker (replacement code)
          (replaceAll old_classifiers new_classifiers
            (replaceAll old_enum new_enum content))), [done_message]) := by
  unfold main readFile
  rw [hc, hk]
  rfl

/-- C1: whenever both reads succeed, `main` writes back to the target
path exactly the composition of the three substitutions, in script
order: the stored text equals
`replace3 (replace2 (replace1 original))`. -/
theorem c1_target_gets_composed_replacements (fs : FileSystem)
    (content code : List Char)
    (hc : fs.files parser_file = some content)
    (hk : fs.files insert_path = some code) :
    ∃ fs2, main fs = Except.ok (fs2, [done_message]) ∧
      fs2.files parser_file =
        some (replaceAll insert_marker (replacement code)
          (replaceAll old_classifiers new_classifiers
            (replaceAll old_enum new_enum content))) := by
  refine ⟨_, main_ok fs content code hc hk, ?_⟩
  simp [writeFile]

/-- Concrete run of C1. -/
theorem c1_target_gets_composed_replacements_witness :
    ∃ fs2, main fsW = Except.ok (fs2, [done_message]) ∧
      fs2.files parser_file =
        some (replaceAll insert_marker (replacement (("xyz").toList))
          (replaceAll old_classifiers new_classifiers
            (replaceAll old_enum new_enum (("abc").toList)))) :=
  c1_target_gets_composed_replacements fsW _ _ fsW_target fsW_insert

/-- C5: a missing target path or a missing insert path surfaces as an
uncaught FileNotFound error terminating the run (nothing inside `main`
catches or classifies it). -/
theorem c5_missing_file_faults (fs : FileSystem) :
    (fs.files parser_file = none →
      main fs = Except.error (PyError.fileNotFound parser_file)) ∧
    (∀ content, fs.files parser_file = some content →
      fs.files insert_path = none →
        main fs = Except.error (PyError.fileNotFound insert_path)) := by
  constructor
  · intro hnone
    unfold main readFile
    rw [hnone]
    rfl
  · intro content hc hnone
    unfold main readFile
    rw [hc, hnone]
    rfl

/-- Concrete runs of C5: both missing-file cases. -/
theorem c5_missing_file_faults_witness :
    main ⟨fun _ => none⟩ = Except.error (PyError.fileNotFound parser_file) ∧
    main ⟨fun q => if q = parser_file then some (("abc").toList) else none⟩ =
      Except.error (PyError.fileNotFound insert_path) :=
  ⟨(c5_missing_file_faults ⟨fun _ => none⟩).1 rfl,
    (c5_missing_file_faults _).2 (("abc").toList) (by simp)
      (by
        have hne : insert_path ≠ parser_file := by decide
        simp [hne])⟩

/-- C6: whenever both reads (and the write, which cannot fail in this
model) succeed, the program prints the fixed confirmation message
exactly once — the printed output is exactly `[done_message]` — even
when the target text matches none of the three literals. -/
theorem c6_prints_message_once (fs : FileSystem) (content code : List Char)
    (hc : fs.files parser_file = some content)
    (hk : fs.files insert_path = some code) :
    ∃ fs2, main fs = Except.ok (fs2, [done_message]) :=
  ⟨_, main_ok fs content code hc hk⟩

/-- Concrete run of C6 on a target that matches none of the three
literals: the replacements are silently skipped and the success message
is still printed exactly once. -/
theorem c6_prints_message_once_witness :
    ∃ fs2, main fsW = Except.ok (fs2, [done_message]) :=
  c6_prints_message_once fsW _ _ fsW_target fsW_insert

/-- C9: `main` modifies only the target file.  On success the target
holds the transformed text, and every other path — the insert file
included — is exactly as before; in particular no file is created or
deleted elsewhere. -/
theorem c9_only_target_modified (fs : FileSystem) (content code : List Char)
    (fs2 : FileSystem) (out : List String)
    (hc : fs.files parser_file = some content)
    (hk : fs.files insert_path = some code)
    (hrun : main fs = Except.ok (fs2, out)) :
    fs2.files parser_file = some (transform code content) ∧
    ∀ p, p ≠ parser_file → fs2.files p = fs.files p := by
  rw [main_ok fs content code hc hk] at hrun
  have h2 : fs2 = writeFile fs parser_file
      (replaceAll insert_marker (replacement code)
        (replaceAll old_classifiers new_classifiers
          (replaceAll old_enum new_enum content))) := by
    have h3 := (Except.ok.injEq _ _).mp hrun
    exact ((Prod.mk.injEq _ _ _ _).mp h3.symm).1
  subst h2
  constructor
  · simp [writeFile, transform]
  · intro p hp
    simp [writeFile, hp]

/-- Concrete run of C9: the target is rewritten, the insert file is
untouched. -/
theorem c9_only_target_modified_witness :
    (writeFile fsW parser_file
        (transform (("xyz").toList) (("abc").toList))).files parser_file =
      some (transform (("xyz").toList) (("abc").toList)) ∧
    (writeFile fsW parser_file
        (transform (("xyz").toList) (("abc").toList))).files insert_path =
      some (("xyz").toList) := by
  have h := c9_only_target_modified fsW (("abc").toList) (("xyz").toList)
    (writeFile fsW parser_file (transform (("xyz").toList) (("abc").toList)))
    [done_message] fsW_target fsW_insert
    (main_ok fsW (("abc").toList) (("xyz").toList) fsW_target fsW_insert)
  refine ⟨h.1, ?_⟩
  rw [h.2 insert_path (by decide)]
  exact fsW_insert

end FieldChanges

namespace FieldChanges

theorem noOverlap_symm {y z : List Char} (h : NoOverlap y z) :
    NoOverlap z y :=
  ⟨h.2.1, h.1, h.2.2.2, h.2.2.1⟩

theorem old_enum_ne : old_enum ≠ [] := by decide

theorem new_enum_ne : new_enum ≠ [] := by decide

theorem old_classifiers_ne : old_classifiers ≠ [] := by decide

theorem new_classifiers_ne : new_classifiers ≠ [] := by decide

theorem insert_marker_ne : insert_marker ≠ [] := by decide

theorem replacement_ne (code : List Char) : replacement code ≠ [] := by
  rw [replacement]
  exact List.append_ne_nil_of_left_ne_nil
    (List.append_ne_nil_of_left_ne_nil (by decide) code) closingBrace

theorem nov_oe_ne : NoOverlap old_enum new_enum :=
  noOverlap_of_checks (by decide) (by decide) (by decide) (by decide)

theorem nov_oe_oc : NoOverlap old_enum old_classifiers :=
  noOverlap_of_checks (by decide) (by decide) (by decide) (by decide)

theorem nov_oe_nc : NoOverlap old_enum new_classifiers :=
  noOverlap_of_checks (by decide) (by decide) (by decide) (by decide)

theorem nov_oe_im : NoOverlap old_enum insert_marker :=
  noOverlap_of_checks (by decide) (by decide) (by decide) (by decide)

theorem nov_ne_oc : NoOverlap new_enum old_classifiers :=
  noOverlap_of_checks (by decide) (by decide) (by decide) (by decide)

theorem nov_ne_nc : NoOverlap new_enum new_classifiers :=
  noOverlap_of_checks (by decide) (by decide) (by decide) (by decide)

theorem nov_ne_im : NoOverlap new_enum insert_marker :=
  noOverlap_of_checks (by decide) (by decide) (by decide) (by decide)

theorem nov_oc_nc : NoOverlap old_classifiers new_classifiers :=
  noOverlap_of_checks (by decide) (by decide) (by decide) (by decide)

theorem nov_oc_im : NoOverlap old_classifiers insert_marker :=
  noOverlap_of_checks (by decide) (by decide) (by decide) (by decide)

theorem nov_nc_im : NoOverlap new_classifiers insert_marker :=
  noOverlap_of_checks (by decide) (by decide) (by decide) (by decide)

theorem bf_ne : BorderFree new_enum := borderFree_of_tailsOk (by decide)

theorem bf_nc : BorderFree new_classifiers := borderFree_of_tailsOk (by decide)

/-- C4: a replacement step whose "old" literal does not occur in the
target text returns the text unchanged and raises no error; if none of
the three "old" literals occur, the text written back equals the text
read. -/
theorem c4_absent_literal_is_noop (content code : List Char) :
    (¬ old_enum <:+: content →
      replaceAll old_enum new_enum content = content) ∧
    (¬ old_classifiers <:+: content →
      replaceAll old_classifiers new_classifiers content = content) ∧
    (¬ insert_marker <:+: content →
      replaceAll insert_marker (replacement code) content = content) ∧
    (¬ old_enum <:+: content → ¬ old_classifiers <:+: content →
      ¬ insert_marker <:+: content →
      ∀ fs, fs.files parser_file = some content →
        fs.files insert_path = some code →
        ∃ fs2, main fs = Except.ok (fs2, [done_message]) ∧
          fs2.files parser_file = some content) := by
  refine ⟨replaceAll_absent new_enum old_enum_ne content,
    replaceAll_absent new_classifiers old_classifiers_ne content,
    replaceAll_absent (replacement code) insert_marker_ne content, ?_⟩
  intro h1 h2 h3 fs hc hk
  refine ⟨_, main_ok fs content code hc hk, ?_⟩
  have ht : replaceAll insert_marker (replacement code)
      (replaceAll old_classifiers new_classifiers
        (replaceAll old_enum new_enum content)) = content := by
    rw [replaceAll_absent new_enum old_enum_ne content h1,
      replaceAll_absent new_classifiers old_classifiers_ne content h2,
      replaceAll_absent (replacement code) insert_marker_ne content h3]
  rw [ht]
  simp [writeFile]

/-- Concrete run of C4: a text without any of the literals passes
through all three steps unchanged. -/
theorem c4_absent_literal_is_noop_witness :
    replaceAll old_enum new_enum (("abc").toList) = ("abc").toList :=
  (c4_absent_literal_is_noop (("abc").toList) (("xyz").toList)).1
    (not_infix_of_containsSub (by decide))

/-- C7: if the target text contains the ComponentType enum block (the
"old" enum literal, whose alternatives end with Input then Card), the
transformed text contains the "new" enum block, which is exactly the
old block with the Field alternative inserted between Input and
Card. -/
theorem c7_enum_field_inserted (code content : List Char)
    (h : old_enum <:+: content) :
    new_enum <:+: transform code content ∧
    old_enum =
      ("export type ComponentType =\n  | 'Button'\n  | 'Input'\n").toList ++
        ("  | 'Card'").toList ∧
    new_enum =
      ("export type ComponentType =\n  | 'Button'\n  | 'Input'\n").toList ++
        (("  | 'Field'\n").toList ++ ("  | 'Card'").toList) := by
  refine ⟨?_, by decide, by decide⟩
  rw [transform]
  apply keepOcc insert_marker_ne nov_ne_im
  apply keepOcc old_classifiers_ne nov_ne_oc
  exact newAppears new_enum old_enum_ne h

/-- Concrete run of C7. -/
theorem c7_enum_field_inserted_witness :
    new_enum <:+: transform goodInsert old_enum :=
  (c7_enum_field_inserted goodInsert old_enum List.infix_rfl).1

/-- C8: if the target text contains the classifier-list "old" literal,
the transformed text contains the "new" list literal, which is exactly
the old list with the entry `this.classifyField,` inserted immediately
after the `this.classifyTextarea,` line, all other entries kept in
their original order. -/
theorem c8_classifier_field_inserted (code content : List Char)
    (h : old_classifiers <:+: content) :
    new_classifiers <:+: transform code content ∧
    old_classifiers =
      ("    const classifiers = [\n      this.classifySlider,\n      this.classifyPagination,\n      this.classifyTabs,\n      this.classifyButton,\n      this.classifyInput,\n      this.classifyTextarea,\n").toList ++
        ("      this.classifyCheckbox,\n      this.classifyRadioGroup,\n      this.classifyRadio,\n      this.classifySwitch,\n      this.classifyToggleGroup,\n      this.classifySelect,\n      this.classifyDialog,\n      this.classifyCard,\n      this.classifyForm,").toList ∧
    new_classifiers =
      ("    const classifiers = [\n      this.classifySlider,\n      this.classifyPagination,\n      this.classifyTabs,\n      this.classifyButton,\n      this.classifyInput,\n      this.classifyTextarea,\n").toList ++
        (("      this.classifyField,\n").toList ++
          ("      this.classifyCheckbox,\n      this.classifyRadioGroup,\n      this.classifyRadio,\n      this.classifySwitch,\n      this.classifyToggleGroup,\n      this.classifySelect,\n      this.classifyDialog,\n      this.classifyCard,\n      this.classifyForm,").toList) := by
  refine ⟨?_, by decide, by decide⟩
  rw [transform]
  apply keepOcc insert_marker_ne nov_nc_im
  apply newAppears new_classifiers old_classifiers_ne
  exact keepOcc old_enum_ne (noOverlap_symm nov_oe_oc) content h

/-- Concrete run of C8. -/
theorem c8_classifier_field_inserted_witness :
    new_classifiers <:+: transform goodInsert old_classifiers :=
  (c8_classifier_field_inserted goodInsert old_classifiers List.infix_rfl).1

end FieldChanges

namespace FieldChanges

/-- C3 as stated is false: with an insert-file content that smuggles in
the enum "old" literal, applying the transformation to the already
patched text is not a no-op — the first run splices the enum literal
into the target, the second run replaces it again. -/
theorem c3_counterexample :
    transform badInsert (transform badInsert insert_marker) ≠
      transform badInsert insert_marker := by decide

/-- C3 amended: the in-memory transformation is idempotent provided
the spliced replacement block cannot overlap (in particular cannot
contain) any of the three "old" literals. -/
theorem c3_idempotent_for_benign_insert (code : List Char)
    (h1 : NoOverlap old_enum (replacement code))
    (h2 : NoOverlap old_classifiers (replacement code))
    (h3 : NoOverlap insert_marker (replacement code))
    (x : List Char) :
    transform code (transform code x) = transform code x := by
  have hoe : ¬ old_enum <:+: transform code x := by
    rw [transform]
    apply noCreate insert_marker_ne h1
    apply noCreate old_classifiers_ne nov_oe_nc
    exact noOldLeft old_enum_ne nov_oe_ne _
  have hoc : ¬ old_classifiers <:+: transform code x := by
    rw [transform]
    apply noCreate insert_marker_ne h2
    exact noOldLeft old_classifiers_ne nov_oc_nc _
  have him : ¬ insert_marker <:+: transform code x := by
    rw [transform]
    exact noOldLeft insert_marker_ne h3 _
  rw [transform, replaceAll_absent new_enum old_enum_ne _ hoe,
    replaceAll_absent new_classifiers old_classifiers_ne _ hoc,
    replaceAll_absent (replacement code) insert_marker_ne _ him]

/-- Concrete run of the amended C3 with a benign insert text. -/
theorem c3_idempotent_for_benign_insert_witness :
    transform goodInsert (transform goodInsert insert_marker) =
      transform goodInsert insert_marker :=
  c3_idempotent_for_benign_insert goodInsert
    (noOverlap_of_checks (by decide) (by decide) (by decide) (by decide))
    (noOverlap_of_checks (by decide) (by decide) (by decide) (by decide))
    (noOverlap_of_checks (by decide) (by decide) (by decide) (by decide))
    insert_marker

/-- C10 as stated is false: in a text where the enum "old" literal
occurs twice but the "new" literal already occurs once, the step
produces three copies of the "new" literal, not two. -/
theorem c10_counterexample :
    countOccs old_enum c10text = 2 ∧
    countOccs new_enum (replaceAll old_enum new_enum c10text) ≠ 2 :=
  ⟨by decide, by decide⟩

/-- C10 amended: each substitution step replaces every occurrence of
its "old" literal, not just the first: if the "old" literal occurs `n`
times and the corresponding "new" literal does not yet occur, the step
produces a text with exactly `n` occurrences of the "new" literal (for
step 3 the spliced "new" value must in addition be border-free). -/
theorem c10_all_occurrences_replaced (code s1 s2 s3 : List Char)
    (n1 n2 n3 : Nat)
    (hb : BorderFree (replacement code))
    (h1 : ¬ new_enum <:+: s1) (hc1 : countOccs old_enum s1 = n1)
    (h2 : ¬ new_classifiers <:+: s2)
    (hc2 : countOccs old_classifiers s2 = n2)
    (h3 : ¬ replacement code <:+: s3)
    (hc3 : countOccs insert_marker s3 = n3) :
    countOccs new_enum (replaceAll old_enum new_enum s1) = n1 ∧
    countOccs new_classifiers
      (replaceAll old_classifiers new_classifiers s2) = n2 ∧
    countOccs (replacement code)
      (replaceAll insert_marker (replacement code) s3) = n3 := by
  refine ⟨?_, ?_, ?_⟩
  · rw [countNew old_enum_ne new_enum_ne bf_ne s1 h1, hc1]
  · rw [countNew old_classifiers_ne new_classifiers_ne bf_nc s2 h2, hc2]
  · rw [countNew insert_marker_ne (replacement_ne code) hb s3 h3, hc3]

/-- Concrete run of the amended C10 with two enum occurrences. -/
theorem c10_all_occurrences_replaced_witness :
    countOccs new_enum
      (replaceAll old_enum new_enum (old_enum ++ old_enum)) = 2 :=
  (c10_all_occurrences_replaced goodInsert (old_enum ++ old_enum)
    old_classifiers insert_marker 2 1 1
    (borderFree_of_tailsOk (by decide))
    (not_infix_of_containsSub (by decide)) (by decide)
    (not_infix_of_containsSub (by decide)) (by decide)
    (not_infix_of_containsSub (by decide)) (by decide)).1

/-- C2 as stated is false: `c2text` contains each "old" literal exactly
once, yet the transformed text contains the enum "new" literal twice,
because `c2text` already contained one copy of it; moreover the enum
"old" literal is not a substring of the enum "new" literal, contrary to
the assertion quoted from the spec. -/
theorem c2_counterexample :
    (countOccs old_enum c2text = 1 ∧
      countOccs old_classifiers c2text = 1 ∧
      countOccs insert_marker c2text = 1) ∧
    countOccs new_enum (transform goodInsert c2text) ≠ 1 ∧
    ¬ old_enum <:+: new_enum :=
  ⟨⟨by decide, by decide, by decide⟩, by decide,
    not_infix_of_containsSub (by decide)⟩

/-- C2 amended: for a target text containing each "old" literal exactly
once and none of the "new" literals, and an insert text whose spliced
block is border-free and cannot overlap the five fixed literals, the
transformed text contains each "new" literal exactly once and no longer
contains any "old" literal (no exception needed: no "old" literal is a
substring of its "new" literal). -/
theorem c2_each_new_exactly_once (code s : List Char) (hok : InsertOk code)
    (h1 : countOccs old_enum s = 1)
    (h2 : countOccs old_classifiers s = 1)
    (h3 : countOccs insert_marker s = 1)
    (m1 : ¬ new_enum <:+: s)
    (m2 : ¬ new_classifiers <:+: s)
    (m3 : ¬ replacement code <:+: s) :
    (countOccs new_enum (transform code s) = 1 ∧
      countOccs new_classifiers (transform code s) = 1 ∧
      countOccs (replacement code) (transform code s) = 1) ∧
    (¬ old_enum <:+: transform code s ∧
      ¬ old_classifiers <:+: transform code s ∧
      ¬ insert_marker <:+: transform code s) := by
  obtain ⟨hb, hoe, hoc, him, hne, hnc⟩ := hok
  have t3 : countOccs new_enum (transform code s) = 1 := by
    rw [transform,
      countKeep insert_marker_ne new_enum_ne nov_ne_im hne,
      countKeep old_classifiers_ne new_enum_ne nov_ne_oc nov_ne_nc,
      countNew old_enum_ne new_enum_ne bf_ne s m1, h1]
  have u1 : countOccs old_classifiers (replaceAll old_enum new_enum s) = 1 := by
    rw [countKeep old_enum_ne old_classifiers_ne
      (noOverlap_symm nov_oe_oc) (noOverlap_symm nov_ne_oc), h2]
  have u2 : ¬ new_classifiers <:+: replaceAll old_enum new_enum s :=
    noCreate old_enum_ne (noOverlap_symm nov_ne_nc) s m2
  have u4 : countOccs new_classifiers (transform code s) = 1 := by
    rw [transform,
      countKeep insert_marker_ne new_classifiers_ne nov_nc_im hnc,
      countNew old_classifiers_ne new_classifiers_ne bf_nc _ u2, u1]
  have v2 : countOccs insert_marker
      (replaceAll old_classifiers new_classifiers
        (replaceAll old_enum new_enum s)) = 1 := by
    rw [countKeep old_classifiers_ne insert_marker_ne
        (noOverlap_symm nov_oc_im) (noOverlap_symm nov_nc_im),
      countKeep old_enum_ne insert_marker_ne
        (noOverlap_symm nov_oe_im) (noOverlap_symm nov_ne_im), h3]
  have v4 : ¬ replacement code <:+:
      replaceAll old_classifiers new_classifiers
        (replaceAll old_enum new_enum s) := by
    apply noCreate old_classifiers_ne (noOverlap_symm hnc)
    exact noCreate old_enum_ne (noOverlap_symm hne) s m3
  have v5 : countOccs (replacement code) (transform code s) = 1 := by
    rw [transform,
      countNew insert_marker_ne (replacement_ne code) hb _ v4, v2]
  have w1 : ¬ old_enum <:+: transform code s := by
    rw [transform]
    apply noCreate insert_marker_ne hoe
    apply noCreate old_classifiers_ne nov_oe_nc
    exact noOldLeft old_enum_ne nov_oe_ne _
  have w2 : ¬ old_classifiers <:+: transform code s := by
    rw [transform]
    apply noCreate insert_marker_ne hoc
    exact noOldLeft old_classifiers_ne nov_oc_nc _
  have w3 : ¬ insert_marker <:+: transform code s := by
    rw [transform]
    exact noOldLeft insert_marker_ne him _
  exact ⟨⟨t3, u4, v5⟩, ⟨w1, w2, w3⟩⟩

/-- Concrete run of the amended C2. -/
theorem c2_each_new_exactly_once_witness :
    countOccs new_enum (transform goodInsert c2goodtext) = 1 :=
  (c2_each_new_exactly_once goodInsert c2goodtext
    ⟨borderFree_of_tailsOk (by decide),
      noOverlap_of_checks (by decide) (by decide) (by decide) (by decide),
      noOverlap_of_checks (by decide) (by decide) (by decide) (by decide),
      noOverlap_of_checks (by decide) (by decide) (by decide) (by decide),
      noOverlap_of_checks (by decide) (by decide) (by decide) (by decide),
      noOverlap_of_checks (by decide) (by decide) (by decide) (by decide)⟩
    (by decide) (by decide) (by decide)
    (not_infix_of_containsSub (by decide))
    (not_infix_of_containsSub (by decide))
    (not_infix_of_containsSub (by decide))).1.1

end FieldChanges
